import Mathlib

/-!
Verification of the command parser, path sandbox, content sanitizer and
mutation handlers of `LMSFileGenie_V0.7.py`.

The Python source is shallowly embedded: every pure fragment becomes a
computable Lean function over `String` / `List Char`, stateful handlers
become explicit functions of the relevant state (the target file's
content, the clipboard, the fingerprint table), and Python exceptions
become `Except` / explicit failure flags.  Filesystem facts a function
merely consults (existence, directory-ness) are passed in as oracles.
-/

namespace LMSFileGenie

/-! ### Character classes (Python semantics)

`pythonWhitespace` is the set of characters recognised by Python's
`str.isspace()` / the `re` module's `\s` class; `lineBoundaryChars` is the
set of line boundaries recognised by `str.splitlines()` (with `"\r\n"`
treated as a single boundary by the splitter itself). -/

def pythonWhitespace : List Char :=
  [' ', '\t', '\n', '\r', '\x0b', '\x0c',
   '\x1c', '\x1d', '\x1e', '\x1f', '\x85', '\xa0',
   ' ', ' ', ' ', ' ', ' ', ' ', ' ',
   ' ', ' ', ' ', ' ', ' ',
   ' ', ' ', ' ', ' ', '　']

def isPySpace (c : Char) : Bool := pythonWhitespace.contains c

def lineBoundaryChars : List Char :=
  ['\n', '\r', '\x0b', '\x0c', '\x1c', '\x1d', '\x1e', '\x85', ' ', ' ']

def isLineBoundary (c : Char) : Bool := lineBoundaryChars.contains c

/-- Python `[a-zA-Z_]` (the ASCII class used by the source's regexes). -/
def isWordStart (c : Char) : Bool := c.isAlpha || c = '_'

/-- ASCII fragment of Python's `\w` (`[a-zA-Z0-9_]`). -/
def isWordChar (c : Char) : Bool := c.isAlphanum || c = '_'

/-! ### `str.splitlines()` and `"\n".join(...)` -/

/-- Worker for `str.splitlines()`: `acc` holds the current line reversed.
A `'\r'` immediately followed by `'\n'` counts as one boundary; a final
partial line is emitted, a trailing boundary does not produce an empty
trailing line. -/
def splitlinesAux : List Char → List Char → List (List Char)
  | [], acc => if acc.isEmpty then [] else [acc.reverse]
  | '\r' :: '\n' :: rest, acc => acc.reverse :: splitlinesAux rest []
  | c :: rest, acc =>
    if isLineBoundary c then acc.reverse :: splitlinesAux rest []
    else splitlinesAux rest (c :: acc)

def splitlinesL (cs : List Char) : List (List Char) := splitlinesAux cs []

/-- Python `"\n".join(...)` on lines given as char lists. -/
def joinNL : List (List Char) → List Char
  | [] => []
  | [l] => l
  | l :: ls => l ++ '\n' :: joinNL ls

/-- Drops one trailing empty line, if present. -/
def dropLastEmpty : List (List Char) → List (List Char)
  | [] => []
  | [x] => if x.isEmpty then [] else [x]
  | x :: xs => x :: dropLastEmpty xs

/-- Python `str.splitlines()` as a `String` function. -/
def splitlines (s : String) : List String := (splitlinesL s.toList).map String.mk

/-- Python `"\n".join(lines)` as a `String` function. -/
def joinLines (ls : List String) : String := String.mk (joinNL (ls.map String.toList))

/-! ### Content sanitizer (`_strip_command_lines` and friends) -/

/-- Tests whether a single line matches the regex `^\s*/[a-zA-Z_]\w*`:
optional whitespace, a slash, then a word-start character. -/
def isCommandLineL (l : List Char) : Bool :=
  match l.dropWhile isPySpace with
  | '/' :: c :: _ => isWordStart c
  | _ => false

/-- `_strip_command_lines`: drop every line that looks like a command
invocation, rejoin with `"\n"`. -/
def strip_command_lines (s : String) : String :=
  String.mk (joinNL ((splitlinesL s.toList).filter (fun l => !isCommandLineL l)))

/-- `_content_has_command_lines`: some line looks like a command invocation. -/
def content_has_command_lines (s : String) : Bool :=
  (splitlinesL s.toList).any isCommandLineL

/-- `_normalize_content_for_writing_from_fence`: drop one leading newline. -/
def normalize_content_for_writing_from_fence (s : String) : String :=
  match s.toList with
  | '\n' :: rest => String.mk rest
  | _ => s

/-! ### Command tokenizer (`find_commands_in_text`)

The scanner is embedded index-for-index: `findCharFrom` / `findSubFrom`
model Python's `str.find` (with `none` for `-1`), `cmdNameAt` models
`re.match(r"/([a-zA-Z_]\w*)", text[m:])`, `quoteScan` models the escaped
quote walk, and `parseArgsAux` / `scanCmds` model the two nested `while`
loops.  The loops are given fuel `len(text) + 1`, which dominates the
number of iterations since every iteration advances the position. -/

def findCharFromAux (c : Char) : List Char → Nat → Option Nat
  | [], _ => none
  | x :: xs, pos => if x = c then some pos else findCharFromAux c xs (pos + 1)

/-- Python `text.find(c, i)` for a single character, `none` for `-1`. -/
def findCharFrom (text : List Char) (c : Char) (i : Nat) : Option Nat :=
  findCharFromAux c (text.drop i) i

def findSubFromAux (pat : List Char) : List Char → Nat → Option Nat
  | [], pos => if pat.isEmpty then some pos else none
  | x :: xs, pos =>
    if pat.isPrefixOf (x :: xs) then some pos else findSubFromAux pat xs (pos + 1)

/-- Python `text.find(pat, i)` for a substring, `none` for `-1`. -/
def findSubFrom (text pat : List Char) (i : Nat) : Option Nat :=
  findSubFromAux pat (text.drop i) i

/-- Models `re.match(r"/([a-zA-Z_]\w*)", text[m:])`: on success returns the
command name and the length of the whole match (`1 + len(name)`). -/
def cmdNameAt (text : List Char) (m : Nat) : Option (String × Nat) :=
  match text.drop m with
  | '/' :: c :: rest =>
    if isWordStart c then
      let tail := rest.takeWhile isWordChar
      some (String.mk (c :: tail), 2 + tail.length)
    else none
  | _ => none

/-- The quoted-argument walk: returns the collected value characters and
the number of characters consumed after the opening quote (including the
closing quote when one is found). -/
def quoteScan (q : Char) : List Char → Bool → (List Char × Nat)
  | [], _ => ([], 0)
  | c :: cs, escaped =>
    if escaped then
      let r := quoteScan q cs false
      (c :: r.1, r.2 + 1)
    else if c = '\\' then
      let r := quoteScan q cs true
      (r.1, r.2 + 1)
    else if c = q then ([], 1)
    else
      let r := quoteScan q cs false
      (c :: r.1, r.2 + 1)

/-- The inner argument loop of `find_commands_in_text`: consume arguments
(fenced block / quoted string / bare token) until end of text or a `/` at
the argument position. -/
def parseArgsAux (text : List Char) : Nat → Nat → List String → (List String × Nat)
  | 0, pos, args => (args, pos)
  | fuel + 1, pos, args =>
    let pos := pos + ((text.drop pos).takeWhile isPySpace).length
    match text.drop pos with
    | [] => (args, pos)
    | ch :: after =>
      if ch = '/' then (args, pos)
      else if ch = '`' && decide (pos + 2 < text.length)
          && decide ((text.drop pos).take 3 = ['`', '`', '`']) then
        let posStart := pos + 3
        match findCharFrom text '\n' posStart with
        | some newlineIdx =>
          match findSubFrom text ['`', '`', '`'] (newlineIdx + 1) with
          | none =>
            parseArgsAux text fuel text.length
              (args ++ [String.mk (text.drop (newlineIdx + 1))])
          | some endIdx =>
            parseArgsAux text fuel (endIdx + 3)
              (args ++ [String.mk ((text.drop (newlineIdx + 1)).take (endIdx - (newlineIdx + 1)))])
        | none =>
          match findSubFrom text ['`', '`', '`'] posStart with
          | none =>
            parseArgsAux text fuel text.length (args ++ [String.mk (text.drop posStart)])
          | some endIdx =>
            parseArgsAux text fuel (endIdx + 3)
              (args ++ [String.mk ((text.drop posStart).take (endIdx - posStart))])
      else if ch = '"' || ch = Char.ofNat 39 then
        let r := quoteScan ch after false
        parseArgsAux text fuel (pos + 1 + r.2) (args ++ [String.mk r.1])
      else
        let tok := (ch :: after).takeWhile (fun c => !isPySpace c && c != '/')
        parseArgsAux text fuel (pos + tok.length)
          (if tok.isEmpty then args else args ++ [String.mk tok])

/-- The lookback `text[m-1] in ("\n", "\r")` of the outer scanner. -/
def prevIsNl (text : List Char) (m : Nat) : Bool :=
  match text.get? (m - 1) with
  | some c => c = '\n' || c = '\r'
  | none => false

/-- The outer scanner loop of `find_commands_in_text`: find the next `/`,
require it to be line-leading, match a command name, consume arguments. -/
def scanCmds (text : List Char) : Nat → Nat → List (String × List String) →
    List (String × List String)
  | 0, _, acc => acc
  | fuel + 1, i, acc =>
    match findCharFrom text '/' i with
    | none => acc
    | some m =>
      if 0 < m && !prevIsNl text m then scanCmds text fuel (m + 1) acc
      else
        match cmdNameAt text m with
        | none => scanCmds text fuel (m + 1) acc
        | some r =>
          let a := parseArgsAux text (text.length + 1) (m + r.2) []
          scanCmds text fuel a.2 (acc ++ [(r.1, a.1)])

def findCmdsL (cs : List Char) : List (String × List String) :=
  scanCmds cs (cs.length + 1) 0 []

/-- `find_commands_in_text` on a `String`. -/
def find_commands_in_text (s : String) : List (String × List String) :=
  findCmdsL s.toList

/-! ### Path sandbox (`path_in_sandbox`, `_safe_target`)

Paths are modelled as lists of segments of an absolute POSIX path (the
canonicalized `base_dir` is given as its segment list).  `Path.resolve()`
is modelled lexically — `".."` pops a segment, `"."` and empty segments
vanish — i.e. the filesystem is symlink-free.  The `exists()` test used
by `_safe_target` is an oracle on segment lists. -/

def stripCharsWhile (p : Char → Bool) (cs : List Char) : List Char :=
  ((cs.dropWhile p).reverse.dropWhile p).reverse

/-- Python: strip whitespace, then double-quote characters, then
single-quote characters, from both ends of `ai_path`. -/
def stripQuotes (s : String) : List Char :=
  stripCharsWhile (fun c => c = Char.ofNat 39)
    (stripCharsWhile (fun c => c = '"') (stripCharsWhile isPySpace s.toList))

/-- Python `p.replace("\\", "/")`. -/
def slashify (cs : List Char) : List Char := cs.map (fun c => if c = '\\' then '/' else c)

def splitSlash : List Char → List (List Char)
  | [] => [[]]
  | c :: cs =>
    if c = '/' then [] :: splitSlash cs
    else
      match splitSlash cs with
      | [] => [[c]]
      | s :: ss => (c :: s) :: ss

/-- pathlib parsing of a relative path string: split on `/`; empty
segments (spurious slashes) and `"."` segments are collapsed at
construction, `".."` is kept. -/
def pathSegs (cs : List Char) : List String :=
  ((splitSlash cs).filter (fun s => !s.isEmpty && s ≠ ['.'])).map String.mk

/-- Lexical `Path.resolve()`: `".."` removes the last segment (at the
root it vanishes, as in POSIX `"/.."` = `"/"`). -/
def resolveSegs (segs : List String) : List String :=
  segs.foldl (fun acc s =>
    if s = ".." then acc.dropLast
    else if s = "." || s = "" then acc
    else acc ++ [s]) []

/-- `path_in_sandbox(target, base_dir)`: resolve both and test
`target.is_relative_to(base)` (segment-prefix). -/
def path_in_sandbox (target base : List String) : Bool :=
  (resolveSegs base).isPrefixOf (resolveSegs target)

/-- The candidate path `_safe_target` builds before its sandbox check:
strip quotes and whitespace, replace backslashes with slashes, join under
`base` (an absolute input is relativized by stripping leading
separators first), then resolve if the candidate exists. -/
def safeTargetCandidate (ex : List String → Bool) (base : List String)
    (aiPath : String) : List String :=
  let p := slashify (stripQuotes aiPath)
  let segs :=
    if p.head? = some '/' then pathSegs (p.dropWhile (fun c => c = '/' || c = '\\'))
    else pathSegs p
  let candidate := base ++ segs
  if ex candidate then resolveSegs candidate else candidate

/-- `_safe_target`: return the candidate, or fail (`PermissionError`,
modelled as `.error ()`) when it is out of the sandbox. -/
def safe_target (ex : List String → Bool) (base : List String)
    (aiPath : String) : Except Unit (List String) :=
  let candidate := safeTargetCandidate ex base aiPath
  if path_in_sandbox candidate base then Except.ok candidate else Except.error ()

/-! ### Content pipelines of the write handlers -/

/-- The sanitation sequence shared by the writing handlers: normalize the
fence newline, then strip command lines when the predicate fires. -/
def sanitizeContent (c : String) : String :=
  let c := normalize_content_for_writing_from_fence c
  if content_has_command_lines c then strip_command_lines c else c

/-- `handle_create_file` content branch: `none` when the handler refuses
because the sanitized content is empty. -/
def createFileContent (c : String) : Option String :=
  let c := sanitizeContent c
  if c = "" then none else some c

/-- `handle_set` whole-file form: `none` when the handler aborts (content
empty after sanitation AND the target exists). -/
def setWholeContent (c : String) (targetExists : Bool) : Option String :=
  let c := sanitizeContent c
  if c = "" && targetExists then none else some c

/-- `handle_append` appended part: `none` when nothing to append. -/
def appendContent (c : String) : Option String :=
  let c := sanitizeContent c
  if c = "" then none else some c

/-- Python `str.replace` worker (nonempty pattern): leftmost
non-overlapping occurrences. -/
def replaceLoop (pat rep : List Char) : Nat → List Char → List Char
  | 0, cs => cs
  | fuel + 1, cs =>
    match cs with
    | [] => []
    | c :: cs' =>
      if pat.isPrefixOf (c :: cs') then
        rep ++ replaceLoop pat rep fuel ((c :: cs').drop pat.length)
      else c :: replaceLoop pat rep fuel cs'

/-- Python `str.replace` (an empty pattern inserts the replacement at
every boundary, as CPython does). -/
def pyReplace (s pat rep : String) : String :=
  if pat.toList.isEmpty then
    String.mk (rep.toList ++ s.toList.foldr (fun c acc => c :: (rep.toList ++ acc)) [])
  else String.mk (replaceLoop pat.toList rep.toList s.toList.length s.toList)

/-- `handle_replace` written text: fence-normalize both arguments,
replace over the file text, then strip command lines if any appear. -/
def replaceWritten (text old new : String) : String :=
  let oldN := normalize_content_for_writing_from_fence old
  let newN := normalize_content_for_writing_from_fence new
  let t := pyReplace text oldN newN
  if content_has_command_lines t then strip_command_lines t else t

/-- Python `s.strip()`. -/
def pyStrip (s : String) : String := String.mk (stripCharsWhile isPySpace s.toList)

def endsWithNL (s : String) : Bool := s.toList.getLast? = some '\n'

/-! ### Patch handler (`handle_patch`) -/

def natOfDigits (ds : List Char) : Nat :=
  ds.foldl (fun n c => n * 10 + (c.toNat - '0'.toNat)) 0

/-- `re.match(r"^\s*(\d+)\s*([+-])\s*(.*)$", raw)`: whitespace, a nonempty
digit run, whitespace, a sign, whitespace, the rest of the line.  Returns
`(lineno, isInsert, text)`. -/
def parsePatchLine (raw : String) : Option (Nat × Bool × String) :=
  let cs := raw.toList.dropWhile isPySpace
  let digits := cs.takeWhile (fun c => c.isDigit)
  if digits.isEmpty then none
  else
    match (cs.drop digits.length).dropWhile isPySpace with
    | '+' :: r => some (natOfDigits digits, true, String.mk (r.dropWhile isPySpace))
    | '-' :: r => some (natOfDigits digits, false, String.mk (r.dropWhile isPySpace))
    | _ => none

/-- `handle_patch` op collection: blank lines and unrecognized lines are
skipped. -/
def parsePatchOps (patches : String) : List (Nat × Bool × String) :=
  (splitlines patches).filterMap (fun raw =>
    if pyStrip raw = "" then none else parsePatchLine raw)

/-- Stable insertion sort (Python's `sorted` is stable; descending order
via `reverse=True` keeps the original order of equal keys). -/
def insertSorted (le : (Nat × Bool × String) → (Nat × Bool × String) → Bool)
    (x : Nat × Bool × String) : List (Nat × Bool × String) → List (Nat × Bool × String)
  | [] => [x]
  | y :: ys => if le x y then x :: y :: ys else y :: insertSorted le x ys

def stableSort (le : (Nat × Bool × String) → (Nat × Bool × String) → Bool) :
    List (Nat × Bool × String) → List (Nat × Bool × String)
  | [] => []
  | x :: xs => insertSorted le x (stableSort le xs)

/-- The removal pass: a `-` op with nonempty text removes line `lineno`
only when the current line's trimmed text matches; out-of-range ops warn
and are skipped. -/
def applyRemoves : List (Nat × Bool × String) → List String → List String
  | [], lines => lines
  | (lineno, _, text) :: rest, lines =>
    let lines :=
      if 1 ≤ lineno && lineno - 1 < lines.length then
        if text != "" && pyStrip (lines.getD (lineno - 1) "") != pyStrip text then lines
        else lines.eraseIdx (lineno - 1)
      else lines
    applyRemoves rest lines

/-- The insertion pass: pad with blank lines when the index is beyond the
end, then insert before `lineno` (1-indexed; `lineno = 0` clamps to 0). -/
def applyInserts : List (Nat × Bool × String) → List String → List String
  | [], lines => lines
  | (lineno, _, text) :: rest, lines =>
    let idx := lineno - 1
    let lines := lines ++ List.replicate (idx - lines.length) ""
    applyInserts rest (lines.insertIdx idx text)

/-- `handle_patch` line edits: all removals first, in descending
line-number order, then insertions in ascending order. -/
def handle_patch_ops (lines : List String) (ops : List (Nat × Bool × String)) :
    List String :=
  let removes := ops.filter (fun o => !o.2.1)
  let inserts := ops.filter (fun o => o.2.1)
  let lines := applyRemoves (stableSort (fun a b => b.1 ≤ a.1) removes) lines
  applyInserts (stableSort (fun a b => a.1 ≤ b.1) inserts) lines

/-- `handle_patch` written text: apply the ops to the file's lines,
rejoin (appending a newline when the last line does not end with one),
then strip command lines if any appear. -/
def patchWritten (text patches : String) : String :=
  let lines := handle_patch_ops (splitlines text) (parsePatchOps patches)
  let newText := joinLines lines ++
    (if !lines.isEmpty && !endsWithNL (lines.getLastD "") then "\n" else "")
  if content_has_command_lines newText then strip_command_lines newText else newText

/-! ### `/set line` (`handle_set`, line branch) -/

/-- `handle_set` line branch core: pad with blank lines up to
`max(0, n-1)`, then set line `n` (1-indexed) or append it. -/
def setLineCore (lines : List String) (n : Int) (newLine : String) : List String :=
  let idx := (max 0 (n - 1)).toNat
  let lines := lines ++ List.replicate (idx - lines.length) ""
  if idx < lines.length then lines.set idx newLine else lines ++ [newLine]

/-- Text-level `/set line` write: rejoin, keeping a trailing newline only
when the replacement line itself ends with one. -/
def setLineWritten (text : String) (n : Int) (newLine : String) : String :=
  let lines := setLineCore (splitlines text) n newLine
  joinLines lines ++ (if endsWithNL newLine then "\n" else "")

/-! ### Clipboard paste (`handle_paste_file`) -/

/-- `handle_paste_file` content decision: `none` when the clipboard is
empty/falsy or the destination extension is not allowed; otherwise the
clipboard content is written VERBATIM — no sanitation pass. -/
def handle_paste_file_content (clip : Option String) (suffixAllowed : Bool) :
    Option String :=
  match clip with
  | none => none
  | some c => if c = "" then none else if !suffixAllowed then none else some c

/-! ### Backup / atomic-write protocol of the destructive handlers -/

/-- `atomic_write`: the content goes to a temporary sibling file and is
renamed over the target, so the target is mutated only by the atomic
rename.  `writeOk = false` models an exception anywhere in the write
step: the target keeps its previous content. -/
def atomic_write (t : Option String) (content : String) (writeOk : Bool) :
    Option String :=
  if writeOk then some content else t

structure WriteOutcome where
  final : Option String
  backupMade : Bool
deriving DecidableEq

/-- `handle_append`: no backup is ever created; sanitize, abort when
empty, else write existing + content. -/
def handle_append_model (t : Option String) (raw : String) (writeOk : Bool) :
    WriteOutcome :=
  match appendContent raw with
  | none => ⟨t, false⟩
  | some c => ⟨atomic_write t (t.getD "" ++ c) writeOk, false⟩

/-- `handle_set` whole-file form: backup when the target exists (before
the content pipeline runs); on a write exception the backup is copied
back over the target. -/
def handle_set_model (t : Option String) (raw : String) (writeOk : Bool) :
    WriteOutcome :=
  match setWholeContent raw t.isSome with
  | none => ⟨t, t.isSome⟩
  | some c => if writeOk then ⟨some c, t.isSome⟩ else ⟨t, t.isSome⟩

/-- `handle_set` line branch: a missing target is first created empty by
a bare `write_text("")` (not atomic), and a timestamped backup is then
made UNCONDITIONALLY (the target always exists at that point); the line
edit is written atomically and on exception the backup is copied back —
so a failed set-line write on a missing target leaves behind an empty
file that did not exist before the operation. -/
def handle_set_line_model (t : Option String) (n : Int) (newLine : String)
    (writeOk : Bool) : WriteOutcome :=
  let text := t.getD ""
  if writeOk then ⟨some (setLineWritten text n newLine), true⟩
  else ⟨some text, true⟩

/-- `handle_replace`: warn when the target is missing (no backup);
otherwise backup, rewrite, restore the backup on exception. -/
def handle_replace_model (t : Option String) (old new : String) (writeOk : Bool) :
    WriteOutcome :=
  match t with
  | none => ⟨none, false⟩
  | some text =>
    if writeOk then ⟨some (replaceWritten text old new), true⟩
    else ⟨some text, true⟩

/-- `handle_remove_line`: missing file warns before any backup; an
out-of-range line number warns after the backup, without writing. -/
def handle_remove_line_model (t : Option String) (n : Nat) (writeOk : Bool) :
    WriteOutcome :=
  match t with
  | none => ⟨none, false⟩
  | some text =>
    let lines := splitlines text
    if 1 ≤ n && n - 1 < lines.length then
      let rest := lines.eraseIdx (n - 1)
      let newText := joinLines rest ++
        (if !rest.isEmpty && endsWithNL (rest.getLastD "") then "\n" else "")
      if writeOk then ⟨some newText, true⟩ else ⟨some text, true⟩
    else ⟨some text, true⟩

/-- `handle_patch` protocol: missing file warns before any backup;
otherwise backup, rewrite, restore on exception. -/
def handle_patch_model (t : Option String) (patches : String) (writeOk : Bool) :
    WriteOutcome :=
  match t with
  | none => ⟨none, false⟩
  | some text =>
    if writeOk then ⟨some (patchWritten text patches), true⟩
    else ⟨some text, true⟩

/-- `handle_paste_file` protocol: backup only when the write is actually
attempted and the target exists; restore on exception. -/
def handle_paste_file_model (t : Option String) (clip : Option String)
    (suffixAllowed : Bool) (writeOk : Bool) : WriteOutcome :=
  match handle_paste_file_content clip suffixAllowed with
  | none => ⟨t, false⟩
  | some c => if writeOk then ⟨some c, t.isSome⟩ else ⟨t, t.isSome⟩

/-- `handle_create_file` write step: without content, create empty only
when absent (no backup); with content, backup when the target exists; the
`except` branch only logs — no restore — so a failed write relies on the
atomic rename having left the target unchanged. -/
def handle_create_file_write (t : Option String) (content : Option String)
    (suffixAllowed : Bool) (writeOk : Bool) : WriteOutcome :=
  match content with
  | none =>
    if t.isSome then ⟨t, false⟩ else ⟨atomic_write none "" writeOk, false⟩
  | some raw =>
    match createFileContent raw with
    | none => ⟨t, false⟩
    | some c =>
      if !suffixAllowed then ⟨t, false⟩
      else ⟨atomic_write t c writeOk, t.isSome⟩

/-! ### `handle_create_file` decision logic -/

def ALLOWED_FILE_EXTENSIONS : List String := [".py", ".js", ".json", ".md", ".txt", ""]

def pjoin (a b : String) : String := a ++ "/" ++ b

def containsNL (s : String) : Bool := s.toList.contains '\n'

/-- `pathlib.Path.suffix`: the extension of the final component — the part
from the last dot on, provided that dot is neither the first nor the last
character of the component name. -/
def pathSuffix (s : String) : String :=
  let name := (s.toList.reverse.takeWhile (fun c => c != '/')).reverse
  match name.reverse.findIdx? (fun c => c = '.') with
  | none => ""
  | some k =>
    let i := name.length - 1 - k
    if 0 < i && i < name.length - 1 then String.mk (name.drop i) else ""

/-- Second-argument redirection of `handle_create_file`: a trailing
separator or an existing directory redirects into a subdirectory; a path
with a suffix becomes the target itself; otherwise the name is joined
below it.  (`mapped.is_dir()` and the suffix are computed on the
second argument's path relative to the base directory.) -/
def createFileTarget (isDir : String → Bool) (name second : String) : String :=
  if second.endsWith "/" || second.endsWith "\\" || isDir second then pjoin second name
  else if pathSuffix second != "" then second
  else pjoin second name

/-- Target and content determination of `handle_create_file` (lines
283-304): a multi-line second argument is content; otherwise it
redirects the target and a multi-line third argument is content. -/
def createFileTargetContent (isDir : String → Bool) (name : String) :
    List String → String × Option String
  | [] => (name, none)
  | second :: rest2 =>
    if containsNL second then (name, some (String.intercalate "\n" (second :: rest2)))
    else
      let target := createFileTarget isDir name second
      match rest2 with
      | [] => (target, none)
      | third :: _ =>
        if containsNL third then (target, some (String.intercalate "\n" rest2))
        else (target, none)

inductive CreateFileAction where
  | refuseNoArgs
  | refuseSandbox (target : String)
  | refuseEmptyContent (target : String)
  | refuseExtension (target : String)
  | writeEmpty (target : String)
  | leaveExisting (target : String)
  | write (target : String) (content : String)
deriving DecidableEq

/-- The full decision logic of `handle_create_file` (lines 279-338), with
the sandbox test, directory test and existence test as oracles on the
target path (relative to the base directory). -/
def handle_create_file_action (inSandbox isDir exists? : String → Bool)
    (args : List String) : CreateFileAction :=
  match args with
  | [] => CreateFileAction.refuseNoArgs
  | name :: rest =>
    let tc := createFileTargetContent isDir name rest
    if !inSandbox tc.1 then CreateFileAction.refuseSandbox tc.1
    else
      match tc.2 with
      | none =>
        if exists? tc.1 then CreateFileAction.leaveExisting tc.1
        else CreateFileAction.writeEmpty tc.1
      | some raw =>
        if sanitizeContent raw = "" then CreateFileAction.refuseEmptyContent tc.1
        else if !ALLOWED_FILE_EXTENSIONS.contains (pathSuffix tc.1) then
          CreateFileAction.refuseExtension tc.1
        else CreateFileAction.write tc.1 (sanitizeContent raw)

/-! ### Reprocessing state (`process_updates_for_file`) -/

def assistantRoles : List String := ["assistant", "system", "bot", "model"]

/-- The keys of `COMMAND_HANDLERS` (the builtin registry). -/
def builtinHandlerNames : List String :=
  ["create_folder", "create_file", "create_script", "screate_script", "set",
   "append", "replace", "delete_file", "delete_folder", "remove_line",
   "move_file", "copy_file", "paste_file", "patch", "cmd"]

/-- `process_assistant_message_text`: extract the commands and enqueue
those whose name has a registered handler. -/
def enqueueableCmds (content : String) : List (String × List String) :=
  (find_commands_in_text content).filter
    (fun c => builtinHandlerNames.contains c.1)

structure ScanResult where
  hashes : Nat → Option String
  enqueued : List (String × List String)

def updateH (h : Nat → Option String) (i : Nat) (v : String) :
    Nat → Option String :=
  fun j => if j = i then some v else h j

/-- The per-message loop of `process_updates_for_file` (lines 912-928),
abstracted over the hash function (`sha256_hex` in the source — only its
determinism matters).  Message indices are the positions `idx`,
`idx + 1`, ...; the source keys its dict by `str(idx)`, and `str` is
injective on naturals.  Non-assistant-like roles only record their
fingerprint; an assistant-like message is skipped when its fingerprint
equals the recorded one, and otherwise its commands are extracted (when
the content is nonempty), enqueued, and the fingerprint recorded. -/
def processMessages (hash : String → String) :
    List (String × String) → Nat → (Nat → Option String) → ScanResult
  | [], _, h => ⟨h, []⟩
  | (role, content) :: rest, idx, h =>
    if !assistantRoles.contains role then
      processMessages hash rest (idx + 1) (updateH h idx (hash content))
    else
      if h idx = some (hash content) then processMessages hash rest (idx + 1) h
      else
        let cmds := if content ≠ "" then enqueueableCmds content else []
        let r := processMessages hash rest (idx + 1) (updateH h idx (hash content))
        ⟨r.hashes, cmds ++ r.enqueued⟩

theorem toList_mk (cs : List Char) : (String.mk cs).toList = cs := rfl

theorem mk_append_mk (a b : List Char) :
    String.mk a ++ String.mk b = String.mk (a ++ b) := rfl

/-! ### Structure lemmas on the splitter -/

theorem splitlinesAux_no_boundary (cs acc : List Char) :
    (∀ c ∈ acc, isLineBoundary c = false) →
      ∀ l ∈ splitlinesAux cs acc, ∀ c ∈ l, isLineBoundary c = false := by
  induction cs, acc using splitlinesAux.induct with
  | case1 acc he =>
    intro hacc l hl c hc
    rw [splitlinesAux, if_pos he] at hl
    cases hl
  | case2 acc he =>
    intro hacc l hl c hc
    rw [splitlinesAux, if_neg he] at hl
    simp only [List.mem_singleton] at hl
    subst hl
    exact hacc c (List.mem_reverse.mp hc)
  | case3 rest acc ih =>
    intro hacc l hl c' hc'
    rw [splitlinesAux.eq_2] at hl
    rcases List.mem_cons.mp hl with h | h
    · subst h
      exact hacc c' (List.mem_reverse.mp hc')
    · exact ih (by intro x hx; cases hx) l h c' hc'
  | case4 c rest acc hguard hbd ih =>
    intro hacc l hl c' hc'
    rw [splitlinesAux.eq_3 _ _ _ hguard, if_pos hbd] at hl
    rcases List.mem_cons.mp hl with h | h
    · subst h
      exact hacc c' (List.mem_reverse.mp hc')
    · exact ih (by intro x hx; cases hx) l h c' hc'
  | case5 c rest acc hguard hbd ih =>
    intro hacc l hl c' hc'
    rw [splitlinesAux.eq_3 _ _ _ hguard, if_neg hbd] at hl
    refine ih ?_ l hl c' hc'
    intro x hx
    rcases List.mem_cons.mp hx with h | h
    · subst h
      simpa using hbd
    · exact hacc x h

theorem splitlinesAux_append (l : List Char) (hl : ∀ c ∈ l, isLineBoundary c = false) :
    ∀ rest acc, splitlinesAux (l ++ rest) acc = splitlinesAux rest (l.reverse ++ acc) := by
  induction l with
  | nil => intro rest acc; simp
  | cons c l' ih =>
    intro rest acc
    have hc : isLineBoundary c = false := hl c (List.mem_cons_self c l')
    have hguard : ∀ cs_1 : List Char, c = '\r' → l' ++ rest = '\n' :: cs_1 → False := by
      intro _ hcr _
      subst hcr
      exact absurd hc (by decide)
    rw [List.cons_append, splitlinesAux.eq_3 _ _ _ hguard]
    simp only [hc, Bool.false_eq_true, if_false]
    rw [ih (fun x hx => hl x (List.mem_cons_of_mem _ hx)) rest (c :: acc)]
    congr 1
    simp

theorem splitlines_joinNL (L : List (List Char))
    (hL : ∀ l ∈ L, ∀ c ∈ l, isLineBoundary c = false) :
    splitlinesL (joinNL L) = dropLastEmpty L := by
  induction L with
  | nil => rfl
  | cons l ls ih =>
    cases ls with
    | nil =>
      rw [joinNL, dropLastEmpty, splitlinesL]
      have h := splitlinesAux_append l (hL l (List.mem_cons_self l [])) [] []
      rw [List.append_nil] at h
      rw [h, splitlinesAux]
      by_cases he : l.isEmpty
      · simp [he, List.isEmpty_iff.mp he]
      · have : l.reverse.isEmpty = false := by
          cases l
          · simp at he
          · simp
        simp [he, this]
    | cons m ms =>
      have hjoin : joinNL (l :: m :: ms) = l ++ '\n' :: joinNL (m :: ms) := rfl
      have hdrop : dropLastEmpty (l :: m :: ms) = l :: dropLastEmpty (m :: ms) := rfl
      rw [hjoin, hdrop, splitlinesL]
      have h := splitlinesAux_append l (hL l (List.mem_cons_self l (m :: ms)))
        ('\n' :: joinNL (m :: ms)) []
      rw [h]
      have hguard : ∀ cs_1 : List Char,
          '\n' = '\r' → joinNL (m :: ms) = '\n' :: cs_1 → False := by
        intro _ hx _
        cases hx
      rw [splitlinesAux.eq_3 _ _ _ hguard]
      have hnl : isLineBoundary '\n' = true := by decide
      rw [if_pos hnl]
      rw [List.append_nil, List.reverse_reverse]
      rw [show splitlinesAux (joinNL (m :: ms)) [] = splitlinesL (joinNL (m :: ms)) from rfl]
      rw [ih (fun x hx => hL x (List.mem_cons_of_mem _ hx))]

theorem joinNL_dropLastEmpty (L : List (List Char)) :
    joinNL L = joinNL (dropLastEmpty L) ∨
      joinNL L = joinNL (dropLastEmpty L) ++ ['\n'] := by
  induction L with
  | nil => left; rfl
  | cons l ls ih =>
    cases ls with
    | nil =>
      by_cases he : l.isEmpty
      · left
        rw [dropLastEmpty, if_pos he, List.isEmpty_iff.mp he]
        rfl
      · left
        rw [dropLastEmpty, if_neg he]
    | cons m ms =>
      have hdrop : dropLastEmpty (l :: m :: ms) = l :: dropLastEmpty (m :: ms) := rfl
      rw [hdrop]
      rcases hq : dropLastEmpty (m :: ms) with _ | ⟨d, ds⟩
      · -- possible only when `ms = []` and `m` is empty
        have hms : ms = [] := by
          cases ms with
          | nil => rfl
          | cons k ks =>
            rw [show dropLastEmpty (m :: k :: ks) = m :: dropLastEmpty (k :: ks) from rfl] at hq
            cases hq
        subst hms
        have hm : m = [] := by
          rw [dropLastEmpty] at hq
          by_cases h : m.isEmpty
          · exact List.isEmpty_iff.mp h
          · rw [if_neg h] at hq; cases hq
        subst hm
        right
        rfl
      · have hjoin3 : joinNL (l :: m :: ms) = l ++ '\n' :: joinNL (m :: ms) := rfl
        have hjoin2 : joinNL (l :: d :: ds) = l ++ '\n' :: joinNL (d :: ds) := rfl
        rcases ih with h | h
        · left
          rw [hjoin3, hjoin2, h, hq]
        · right
          rw [hjoin3, hjoin2, h, hq]
          simp

theorem mem_dropLastEmpty {L : List (List Char)} {x : List Char} :
    x ∈ dropLastEmpty L → x ∈ L := by
  induction L with
  | nil => intro h; rw [dropLastEmpty] at h; exact absurd h (List.not_mem_nil x)
  | cons l ls ih =>
    cases ls with
    | nil =>
      intro h
      rw [dropLastEmpty] at h
      split at h
      · exact absurd h (List.not_mem_nil x)
      · exact h
    | cons m ms =>
      intro h
      rw [show dropLastEmpty (l :: m :: ms) = l :: dropLastEmpty (m :: ms) from rfl] at h
      rcases List.mem_cons.mp h with h | h
      · exact h ▸ List.mem_cons_self _ _
      · exact List.mem_cons_of_mem _ (ih h)

/-- Every surviving line of the stripper is free of command-line syntax,
and free of line boundaries. -/
theorem kept_lines_no_boundary (s : String) :
    ∀ l ∈ (splitlinesL s.toList).filter (fun l => !isCommandLineL l),
      ∀ c ∈ l, isLineBoundary c = false := by
  intro l hl c hc
  have hl' : l ∈ splitlinesL s.toList := List.mem_of_mem_filter hl
  exact splitlinesAux_no_boundary s.toList [] (by intro x hx; cases hx) l hl' c hc

/-- Helper: the stripper's output never contains a detectable command line. -/
theorem has_strip_false (s : String) :
    content_has_command_lines (strip_command_lines s) = false := by
  rw [strip_command_lines, content_has_command_lines, toList_mk]
  rw [splitlines_joinNL _ (kept_lines_no_boundary s)]
  rw [List.any_eq_false]
  intro l hl
  have hl' := mem_dropLastEmpty hl
  have := List.of_mem_filter hl'
  simpa using this

theorem strip_strip_eq (s : String) :
    strip_command_lines (strip_command_lines s) = strip_command_lines s ∨
      strip_command_lines (strip_command_lines s) ++ "\n" = strip_command_lines s := by
  have hfix :
      (splitlinesL (strip_command_lines s).toList).filter (fun l => !isCommandLineL l)
        = dropLastEmpty ((splitlinesL s.toList).filter (fun l => !isCommandLineL l)) := by
    rw [strip_command_lines, toList_mk]
    rw [splitlines_joinNL _ (kept_lines_no_boundary s)]
    refine List.filter_eq_self.mpr ?_
    intro x hx
    exact (List.mem_filter.mp (mem_dropLastEmpty hx)).2
  rcases joinNL_dropLastEmpty
      ((splitlinesL s.toList).filter (fun l => !isCommandLineL l)) with h | h
  · left
    conv_lhs => rw [strip_command_lines, hfix]
    conv_rhs => rw [strip_command_lines]
    rw [← h]
  · right
    conv_lhs => rw [strip_command_lines, hfix]
    conv_rhs => rw [strip_command_lines]
    rw [show ("\n" : String) = String.mk ['\n'] from rfl, mk_append_mk, ← h]

/-- Claim C10 (counterexample): `_strip_command_lines` is NOT idempotent.
On `"a\n\n"` one pass keeps the lines `["a", ""]` and rejoins them as
`"a\n"`; a second pass splits that into `["a"]` and rejoins as `"a"`,
dropping the trailing newline, so the two results differ. -/
theorem strip_command_lines_not_idempotent :
    strip_command_lines (strip_command_lines "a\n\n") ≠ strip_command_lines "a\n\n" := by
  decide

/-- Claim C10 (amended): for every string `s`,
`_content_has_command_lines (_strip_command_lines s)` is false — the
stripper and the predicate agree on what counts as a command line, so one
stripping pass leaves no detectable command lines — but
`_strip_command_lines` is only idempotent up to one trailing newline:
a second pass either returns the same string or returns it with exactly
one trailing `"\n"` removed (the `"\n".join(splitlines(...))` round trip
drops a trailing empty line). -/
theorem strip_command_lines_spec (s : String) :
    content_has_command_lines (strip_command_lines s) = false ∧
      (strip_command_lines (strip_command_lines s) = strip_command_lines s ∨
        strip_command_lines (strip_command_lines s) ++ "\n" = strip_command_lines s) :=
  ⟨has_strip_false s, strip_strip_eq s⟩

theorem findCharFromAux_spec (c : Char) (cs : List Char) :
    ∀ pos m, findCharFromAux c cs pos = some m → pos ≤ m ∧ cs.get? (m - pos) = some c := by
  induction cs with
  | nil => intro pos m h; cases h
  | cons x xs ih =>
    intro pos m h
    rw [findCharFromAux] at h
    by_cases hx : x = c
    · rw [if_pos hx] at h
      cases h
      subst hx
      exact ⟨Nat.le_refl _, by simp⟩
    · rw [if_neg hx] at h
      obtain ⟨h1, h2⟩ := ih (pos + 1) m h
      refine ⟨Nat.le_of_succ_le h1, ?_⟩
      have hm : m - pos = (m - (pos + 1)) + 1 := by omega
      rw [hm]
      simpa using h2

theorem findCharFrom_spec (text : List Char) (c : Char) (i m : Nat)
    (h : findCharFrom text c i = some m) : text.get? m = some c := by
  obtain ⟨h1, h2⟩ := findCharFromAux_spec c (text.drop i) i m h
  rw [List.get?_drop] at h2
  rwa [Nat.add_sub_cancel' h1] at h2

/-- If no `/` in the text is line-leading, the scanner extracts nothing:
every found slash fails the lookback test and is skipped. -/
theorem scanCmds_of_no_lineleading (text : List Char)
    (H : ∀ m, text.get? m = some '/' → 0 < m ∧ prevIsNl text m = false) :
    ∀ fuel i acc, scanCmds text fuel i acc = acc := by
  intro fuel
  induction fuel with
  | zero => intro i acc; rfl
  | succ fuel ih =>
    intro i acc
    cases hf : findCharFrom text '/' i with
    | none => rw [scanCmds, hf]
    | some m =>
      have hm := findCharFrom_spec text '/' i m hf
      obtain ⟨h1, h2⟩ := H m hm
      rw [scanCmds, hf]
      have hcond : (decide (0 < m) && !prevIsNl text m) = true := by simp [h1, h2]
      simp only [hcond, if_true]
      exact ih (m + 1) acc

/-- Claim C4: extracting commands from the text
`"/create_file a.txt\n```\nhello\n```\n"` yields exactly one command,
named `create_file`, with argument list `["a.txt", "hello\n"]` (the fence
value keeps the single trailing newline before the closing fence). -/
theorem find_commands_fence_roundtrip :
    find_commands_in_text "/create_file a.txt\n```\nhello\n```\n" =
      [("create_file", ["a.txt", "hello\n"])] := by
  decide

/-- Claim C5 (counterexample): argument consumption DOES stop at a
mid-line `/`.  On `"/set a b/c"` the bare token ends at the `/` and the
argument loop then breaks at that `/`, so the extracted arguments are
`["a", "b"]` — the trailing `c` is dropped — whereas the claim predicts
consumption continues to end of text, yielding `"b/c"` (or `"c"`) among
the arguments. -/
theorem find_commands_stops_at_midline_slash :
    find_commands_in_text "/set a b/c" = [("set", ["a", "b"])] ∧
      find_commands_in_text "/set a b/c" ≠ [("set", ["a", "b/c"])] ∧
      find_commands_in_text "/set a b/c" ≠ [("set", ["a", "b", "c"])] := by
  decide

/-- Claim C5 (amended): a `/` appearing mid-line (not preceded by
start-of-text, `\n`, or `\r`) is never treated as a command start — a text
none of whose slashes are line-leading yields no commands at all — but
argument consumption stops at ANY `/` standing at an argument position,
not only at a line-leading one: on `"/set a b/c"` the arguments end at
the mid-line `/` and the rest of the token is dropped. -/
theorem tokenizer_slash_handling :
    (∀ text : List Char,
        (∀ m, m < text.length → text.get? m = some '/' →
          0 < m ∧ prevIsNl text m = false) →
        findCmdsL text = []) ∧
      find_commands_in_text "/set a b/c" = [("set", ["a", "b"])] := by
  constructor
  · intro text H
    refine scanCmds_of_no_lineleading text ?_ _ 0 []
    intro m hm
    have hlt : m < text.length := by
      by_contra hge
      rw [List.get?_eq_none.mpr (Nat.le_of_not_lt hge)] at hm
      cases hm
    exact H m hlt hm
  · decide

theorem tokenizer_slash_handling_witness :
    (∀ m, m < ("x /set y".toList).length →
        ("x /set y".toList).get? m = some '/' →
        0 < m ∧ prevIsNl ("x /set y".toList) m = false) ∧
      findCmdsL ("x /set y".toList) = [] :=
  ⟨by decide, tokenizer_slash_handling.1 ("x /set y".toList) (by decide)⟩

/-- Claim C1: for every filesystem oracle, base directory and raw path
string, `_safe_target` either returns a path whose resolution is equal to
or a descendant of the resolved base directory, or raises the
out-of-sandbox `PermissionError` (so no handler proceeds past the check);
whenever the candidate's resolution escapes the base it fails.
Concretely: the `..`-laden input `"../../etc/passwd"` fails, and the
absolute input `"/etc/passwd"` is re-rooted inside the sandbox instead of
escaping. -/
theorem safe_target_sound :
    (∀ (ex : List String → Bool) (base : List String) (p : String) (t : List String),
        safe_target ex base p = Except.ok t →
          resolveSegs base <+: resolveSegs t) ∧
    (∀ (ex : List String → Bool) (base : List String) (p : String),
        path_in_sandbox (safeTargetCandidate ex base p) base = false →
          safe_target ex base p = Except.error ()) ∧
    safe_target (fun _ => false) ["sbx"] "../../etc/passwd" = Except.error () ∧
    safe_target (fun _ => false) ["sbx"] "/etc/passwd" = Except.ok ["sbx", "etc", "passwd"] := by
  refine ⟨?_, ?_, by rfl, by rfl⟩
  · intro ex base p t h
    rw [safe_target] at h
    by_cases hs : path_in_sandbox (safeTargetCandidate ex base p) base
    · rw [if_pos hs] at h
      cases h
      exact List.isPrefixOf_iff_prefix.mp hs
    · rw [if_neg hs] at h
      cases h
  · intro ex base p hc
    rw [safe_target, if_neg (by simp [hc])]

theorem safe_target_sound_witness :
    (resolveSegs ["sbx"] <+: resolveSegs ["sbx", "docs", "a.txt"]) ∧
      safe_target (fun _ => false) ["sbx"] "../esc" = Except.error () :=
  ⟨safe_target_sound.1 (fun _ => false) ["sbx"] "docs/a.txt" ["sbx", "docs", "a.txt"]
      (by rfl),
    safe_target_sound.2.1 (fun _ => false) ["sbx"] "../esc" (by decide)⟩

/-- A conditional stripping pass (`if has then strip else id`) leaves no
detectable command line. -/
theorem has_sanitize_false (s : String) :
    content_has_command_lines
      (if content_has_command_lines s then strip_command_lines s else s) = false := by
  by_cases h : content_has_command_lines s
  · rw [if_pos h]
    exact has_strip_false s
  · rw [if_neg h]
    exact Bool.eq_false_iff.mpr h

theorem has_sanitizeContent_false (s : String) :
    content_has_command_lines (sanitizeContent s) = false :=
  has_sanitize_false (normalize_content_for_writing_from_fence s)

/-- Claim C2 (counterexample): `handle_paste_file` performs NO sanitation
pass: clipboard content containing the command line `/rm -rf` is written
verbatim to the destination. -/
theorem paste_file_writes_command_lines :
    handle_paste_file_content (some "/rm -rf\nhello") true = some "/rm -rf\nhello" ∧
      content_has_command_lines "/rm -rf\nhello" = true := by
  exact ⟨rfl, by decide⟩

/-- Claim C2 (amended): the content written by `create_file`, whole-file
`set`, `append`, `replace` and `patch` passes through the sanitizer, so
it never contains a detectable command line; but `paste_file` writes the
clipboard verbatim (no sanitation), and the `set line` form writes the
raw replacement line (e.g. setting line 1 to `"/rm -rf"` leaves a command
line in the file). -/
theorem write_pipelines_sanitized (c old new text patches : String) (e : Bool) :
    content_has_command_lines ((createFileContent c).getD "") = false ∧
      content_has_command_lines ((setWholeContent c e).getD "") = false ∧
      content_has_command_lines ((appendContent c).getD "") = false ∧
      content_has_command_lines (replaceWritten text old new) = false ∧
      content_has_command_lines (patchWritten text patches) = false ∧
      content_has_command_lines (setLineWritten "" 1 "/rm -rf") = true ∧
      handle_paste_file_content (some "/rm -rf") true = some "/rm -rf" := by
  refine ⟨?_, ?_, ?_, ?_, ?_, by decide, rfl⟩
  · rw [createFileContent]
    by_cases h : sanitizeContent c = ""
    · rw [if_pos h]
      rfl
    · rw [if_neg h]
      exact has_sanitizeContent_false c
  · rw [setWholeContent]
    by_cases h : (sanitizeContent c = "" && e : Bool)
    · rw [if_pos h]
      rfl
    · rw [if_neg h]
      exact has_sanitizeContent_false c
  · rw [appendContent]
    by_cases h : sanitizeContent c = ""
    · rw [if_pos h]
      rfl
    · rw [if_neg h]
      exact has_sanitizeContent_false c
  · exact has_sanitize_false _
  · exact has_sanitize_false _

/-- Claim C3 (counterexample): `handle_append` is a destructive write on
an existing target (its content is overwritten with old + new), yet it
creates NO timestamped backup, contradicting step (a) of the claimed
protocol. -/
theorem append_makes_no_backup :
    handle_append_model (some "x") "y" true =
      { final := some "xy", backupMade := false } := by
  rfl

/-- Claim C3 (amended): every content write goes through a temporary
sibling file and an atomic rename; whole-file `set`, `replace`,
`remove_line`, `patch` create a timestamped backup exactly when the
target exists (and restore it on exception), and for them a write failure
leaves the target's content exactly as before; `paste_file` and
`create_file` create one exactly when the target exists and the write is
actually attempted, and a failed write leaves their target unchanged;
`append` creates no backup at all (its failure safety rests solely on the
atomic rename), and `create_file` does not restore its backup on
exception.  The `set line` form deviates twice: a missing target is
first created empty by a bare non-atomic `write_text("")` and a backup is
then made UNCONDITIONALLY — so its backup is not conditioned on the
target's prior existence, and a failed set-line write on a missing target
leaves behind an empty file that did not exist before the operation (on
an existing target the restored backup does preserve the content). -/
theorem write_protocol_spec (t : Option String)
    (raw old new patches clip : String) (n : Nat) (allowed : Bool) :
    (clip ≠ "" → allowed = true →
      (handle_paste_file_model t (some clip) allowed true).backupMade = t.isSome) ∧
    ((createFileContent raw).isSome = true → allowed = true →
      (handle_create_file_write t (some raw) allowed true).backupMade = t.isSome) ∧
    atomic_write t raw false = t ∧
    (handle_append_model t raw false).final = t ∧
    (handle_append_model t raw true).backupMade = false ∧
    (handle_set_model t raw false).final = t ∧
    (handle_set_model t raw true).backupMade = t.isSome ∧
    (handle_replace_model t old new false).final = t ∧
    (handle_replace_model t old new true).backupMade = t.isSome ∧
    (handle_remove_line_model t n false).final = t ∧
    (handle_remove_line_model t n true).backupMade = t.isSome ∧
    (handle_patch_model t patches false).final = t ∧
    (handle_patch_model t patches true).backupMade = t.isSome ∧
    (handle_paste_file_model t (some clip) allowed false).final = t ∧
    (handle_create_file_write t (some raw) allowed false).final = t ∧
    (handle_create_file_write t none allowed false).final = t ∧
    (handle_set_line_model (some raw) (n : Int) new false).final = some raw ∧
    (∀ w : Bool, (handle_set_line_model t (n : Int) new w).backupMade = true) ∧
    (handle_set_line_model none (n : Int) new false).final = some "" := by
  refine ⟨?_, ?_, rfl, ?_, ?_, ?_, ?_, ?_, ?_, ?_, ?_, ?_, ?_, ?_, ?_, ?_, rfl, ?_, rfl⟩
  · intro hc ha
    subst ha
    rw [handle_paste_file_model, handle_paste_file_content]
    rw [if_neg hc]
    rfl
  · intro hc ha
    subst ha
    rw [handle_create_file_write]
    cases hcc : createFileContent raw with
    | none => rw [hcc] at hc; cases hc
    | some c => rfl
  · rw [handle_append_model]
    cases appendContent raw with
    | none => rfl
    | some c => rfl
  · rw [handle_append_model]
    cases appendContent raw with
    | none => rfl
    | some c => rfl
  · rw [handle_set_model]
    cases setWholeContent raw t.isSome with
    | none => rfl
    | some c => rfl
  · rw [handle_set_model]
    cases setWholeContent raw t.isSome with
    | none => rfl
    | some c => rfl
  · cases t with
    | none => rfl
    | some text => rfl
  · cases t with
    | none => rfl
    | some text => rfl
  · cases t with
    | none => rfl
    | some text =>
      rw [handle_remove_line_model]
      by_cases h : (1 ≤ n && n - 1 < (splitlines text).length : Bool)
      · rw [if_pos h]
        rfl
      · rw [if_neg h]
  · cases t with
    | none => rfl
    | some text =>
      rw [handle_remove_line_model]
      by_cases h : (1 ≤ n && n - 1 < (splitlines text).length : Bool)
      · rw [if_pos h]
        rfl
      · rw [if_neg h]
        rfl
  · cases t with
    | none => rfl
    | some text => rfl
  · cases t with
    | none => rfl
    | some text => rfl
  · rw [handle_paste_file_model]
    cases handle_paste_file_content (some clip) allowed with
    | none => rfl
    | some c => rfl
  · rw [handle_create_file_write]
    cases createFileContent raw with
    | none => rfl
    | some c =>
      by_cases h : allowed
      · subst h
        rfl
      · rw [Bool.eq_false_iff.mpr h]
        rfl
  · cases t with
    | none => rfl
    | some text => rfl
  · intro w
    cases w <;> rfl

theorem write_protocol_spec_witness :
    (handle_paste_file_model (some "before") (some "hello") true true).backupMade =
        (some "before" : Option String).isSome ∧
      (handle_create_file_write (some "before") (some "data") true true).backupMade =
        (some "before" : Option String).isSome :=
  ⟨(write_protocol_spec (some "before") "data" "o" "n" "p" "hello" 1 true).1
      (by decide) rfl,
    (write_protocol_spec (some "before") "data" "o" "n" "p" "hello" 1 true).2.1
      (by decide) rfl⟩

/-- Claim C7: the patch handler applies all `-` ops first in descending
line order, then all `+` ops in ascending order (this is the definition
of `handle_patch_ops`); a `-` op with nonempty text removes line `n` only
when the current line's trimmed text equals the op's trimmed text, and is
skipped otherwise; and patching `["a","b","c"]` with ops `"2 - b"`,
`"2 + x"` yields exactly `["a","x","c"]` (string level:
`"a\nb\nc"` becomes `"a\nx\nc\n"`). -/
theorem patch_order_spec :
    (∀ (lines : List String) (n : Nat) (text : String),
        1 ≤ n → n - 1 < lines.length → text ≠ "" →
        pyStrip (lines.getD (n - 1) "") ≠ pyStrip text →
        handle_patch_ops lines [(n, false, text)] = lines) ∧
      handle_patch_ops ["a", "b", "c"] (parsePatchOps "2 - b\n2 + x") = ["a", "x", "c"] ∧
      patchWritten "a\nb\nc" "2 - b\n2 + x" = "a\nx\nc\n" := by
  refine ⟨?_, by decide, by decide⟩
  intro lines n text h1 h2 h3 h4
  have hc1 : (decide (1 ≤ n) && decide (n - 1 < lines.length)) = true := by
    simp [h1, h2]
  have hc2 : (text != "" && (pyStrip (lines.getD (n - 1) "") != pyStrip text)) = true := by
    rw [Bool.and_eq_true]
    exact ⟨bne_iff_ne.mpr h3, bne_iff_ne.mpr h4⟩
  show applyRemoves [(n, false, text)] lines = lines
  rw [applyRemoves, if_pos hc1, if_pos hc2]
  rfl

theorem patch_order_spec_witness :
    handle_patch_ops ["keep"] [(1, false, "different")] = ["keep"] :=
  patch_order_spec.1 ["keep"] 1 "different" (by decide) (by decide) (by decide) (by decide)

/-- Claim C8: `/set line N path text` with `N` beyond the current line
count pads the file with blank lines up to line `N-1` and sets line `N`
to the text: the result has exactly `N` lines, the original lines are
unchanged, the new lines in between are blank, and line `N` is the text.
In particular `/set line 5` on a 2-line file gives
`"l1\nl2\n\n\nhi"`. -/
theorem set_line_pads_spec :
    (∀ (lines : List String) (n : Nat) (newLine : String),
        lines.length < n →
        (setLineCore lines (n : Int) newLine).length = n ∧
        (setLineCore lines (n : Int) newLine).take lines.length = lines ∧
        (setLineCore lines (n : Int) newLine)[n - 1]? = some newLine ∧
        (∀ i, lines.length ≤ i → i < n - 1 →
          (setLineCore lines (n : Int) newLine)[i]? = some "")) ∧
      setLineWritten "l1\nl2" 5 "hi" = "l1\nl2\n\n\nhi" := by
  refine ⟨?_, by decide⟩
  intro lines n newLine hlt
  have hidx : (max 0 ((n : Int) - 1)).toNat = n - 1 := by omega
  have hlen : lines.length ≤ n - 1 := by omega
  have hpadlen :
      (lines ++ List.replicate (n - 1 - lines.length) "").length = n - 1 := by
    simp only [List.length_append, List.length_replicate]
    omega
  have hres : setLineCore lines (n : Int) newLine =
      (lines ++ List.replicate (n - 1 - lines.length) "") ++ [newLine] := by
    rw [setLineCore, hidx]
    rw [if_neg (by rw [hpadlen]; omega)]
  rw [hres]
  refine ⟨?_, ?_, ?_, ?_⟩
  · simp only [List.length_append, List.length_replicate, List.length_singleton]
    omega
  · rw [List.append_assoc]
    exact List.take_left lines _
  · rw [List.getElem?_append_right (by omega)]
    rw [hpadlen, Nat.sub_self]
    rfl
  · intro i hi1 hi2
    rw [List.getElem?_append_left (by rw [hpadlen]; omega)]
    rw [List.getElem?_append_right (by omega)]
    rw [List.getElem?_replicate]
    rw [if_pos (by omega)]

theorem set_line_pads_spec_witness :
    (setLineCore ["l1", "l2"] (5 : Int) "hi").length = 5 ∧
      (setLineCore ["l1", "l2"] (5 : Int) "hi")[4]? = some "hi" := by
  obtain ⟨h1, _, h3, _⟩ := set_line_pads_spec.1 ["l1", "l2"] 5 "hi" (by decide)
  exact ⟨h1, h3⟩

/-- Claim C6 (counterexample): with NO content argument the extension
whitelist is never consulted: `/create_file evil.exe` on an absent target
creates the (empty) file even though `.exe` is not an allowed
extension — the check only runs in the content-writing branch. -/
theorem create_file_extension_bypass :
    handle_create_file_action (fun _ => true) (fun _ => false) (fun _ => false)
        ["evil.exe"] = CreateFileAction.writeEmpty "evil.exe" ∧
      ALLOWED_FILE_EXTENSIONS.contains (pathSuffix "evil.exe") = false := by
  exact ⟨rfl, by decide⟩

/-- Claim C6 (amended): when content is provided, `create_file` refuses
on a disallowed extension and on content that is empty after
sanitization (every written content is sanitized and nonempty); when no
content argument is given it creates the file empty if absent and leaves
it untouched if present — in that branch no extension check happens. -/
theorem create_file_refusals (inS isD exi : String → Bool) (args : List String) :
    (∀ t c, handle_create_file_action inS isD exi args = CreateFileAction.write t c →
        ALLOWED_FILE_EXTENSIONS.contains (pathSuffix t) = true ∧
        c ≠ "" ∧ content_has_command_lines c = false) ∧
    (∀ name, inS name = true →
        handle_create_file_action inS isD exi [name] =
          (if exi name then CreateFileAction.leaveExisting name
           else CreateFileAction.writeEmpty name)) := by
  constructor
  · intro t c h
    cases args with
    | nil =>
      rw [handle_create_file_action] at h
      cases h
    | cons name rest =>
      rw [handle_create_file_action] at h
      by_cases hs : inS (createFileTargetContent isD name rest).1
      · rw [if_neg (by simp [hs])] at h
        cases htc : (createFileTargetContent isD name rest).2 with
        | none =>
          simp only [htc] at h
          by_cases he : exi (createFileTargetContent isD name rest).1
          · rw [if_pos he] at h
            cases h
          · rw [if_neg he] at h
            cases h
        | some raw =>
          simp only [htc] at h
          by_cases hc0 : sanitizeContent raw = ""
          · rw [if_pos hc0] at h
            cases h
          · rw [if_neg hc0] at h
            by_cases hall :
                ALLOWED_FILE_EXTENSIONS.contains
                  (pathSuffix (createFileTargetContent isD name rest).1)
            · rw [if_neg (by rw [hall]; exact Bool.false_ne_true)] at h
              cases h
              exact ⟨hall, hc0, has_sanitizeContent_false raw⟩
            · rw [if_pos (by rw [Bool.eq_false_iff.mpr hall]; rfl)] at h
              cases h
      · rw [if_pos (by simp [Bool.eq_false_iff.mpr hs])] at h
        cases h
  · intro name hn
    rw [handle_create_file_action]
    show (if !inS name then CreateFileAction.refuseSandbox name
      else if exi name then CreateFileAction.leaveExisting name
      else CreateFileAction.writeEmpty name) = _
    rw [if_neg (by simp [hn])]

theorem create_file_refusals_witness :
    (ALLOWED_FILE_EXTENSIONS.contains (pathSuffix "a.txt") = true ∧
        ("x\ny" : String) ≠ "" ∧ content_has_command_lines "x\ny" = false) ∧
      handle_create_file_action (fun _ => true) (fun _ => false) (fun _ => false)
          ["f.txt"] = CreateFileAction.writeEmpty "f.txt" := by
  constructor
  · exact (create_file_refusals (fun _ => true) (fun _ => false) (fun _ => false)
      ["a.txt", "x\ny"]).1 "a.txt" "x\ny" (by rfl)
  · have h := (create_file_refusals (fun _ => true) (fun _ => false) (fun _ => false)
      ["f.txt"]).2 "f.txt" rfl
    simpa using h

theorem processMessages_hashes_lt (hash : String → String)
    (msgs : List (String × String)) :
    ∀ (idx : Nat) (h : Nat → Option String) (j : Nat), j < idx →
      (processMessages hash msgs idx h).hashes j = h j := by
  induction msgs with
  | nil => intro idx h j hj; rfl
  | cons m rest ih =>
    intro idx h j hj
    obtain ⟨role, content⟩ := m
    rw [processMessages]
    by_cases hr : assistantRoles.contains role
    · rw [if_neg (by rw [hr]; exact Bool.false_ne_true)]
      by_cases he : h idx = some (hash content)
      · rw [if_pos he]
        exact ih (idx + 1) h j (Nat.lt_succ_of_lt hj)
      · rw [if_neg he]
        show (processMessages hash rest (idx + 1)
          (updateH h idx (hash content))).hashes j = h j
        rw [ih (idx + 1) _ j (Nat.lt_succ_of_lt hj)]
        rw [updateH, if_neg (by omega)]
    · rw [if_pos (by rw [Bool.eq_false_iff.mpr hr]; rfl)]
      rw [ih (idx + 1) _ j (Nat.lt_succ_of_lt hj)]
      rw [updateH, if_neg (by omega)]

theorem processMessages_hashes_set (hash : String → String)
    (msgs : List (String × String)) :
    ∀ (idx : Nat) (h : Nat → Option String) (k : Nat), k < msgs.length →
      (processMessages hash msgs idx h).hashes (idx + k) =
        some (hash (msgs.getD k ("", "")).2) := by
  induction msgs with
  | nil => intro idx h k hk; cases hk
  | cons m rest ih =>
    intro idx h k hk
    obtain ⟨role, content⟩ := m
    cases k with
    | zero =>
      rw [Nat.add_zero, List.getD_cons_zero]
      rw [processMessages]
      by_cases hr : assistantRoles.contains role
      · rw [if_neg (by rw [hr]; exact Bool.false_ne_true)]
        by_cases he : h idx = some (hash content)
        · rw [if_pos he]
          rw [processMessages_hashes_lt hash rest (idx + 1) h idx (Nat.lt_succ_self idx)]
          exact he
        · rw [if_neg he]
          show (processMessages hash rest (idx + 1)
            (updateH h idx (hash content))).hashes idx = _
          rw [processMessages_hashes_lt hash rest (idx + 1) _ idx (Nat.lt_succ_self idx)]
          rw [updateH, if_pos rfl]
      · rw [if_pos (by rw [Bool.eq_false_iff.mpr hr]; rfl)]
        rw [processMessages_hashes_lt hash rest (idx + 1) _ idx (Nat.lt_succ_self idx)]
        rw [updateH, if_pos rfl]
    | succ n =>
      rw [List.getD_cons_succ]
      have harith : idx + (n + 1) = (idx + 1) + n := by omega
      rw [harith]
      have hn : n < rest.length := by
        simp only [List.length_cons] at hk
        omega
      rw [processMessages]
      by_cases hr : assistantRoles.contains role
      · rw [if_neg (by rw [hr]; exact Bool.false_ne_true)]
        by_cases he : h idx = some (hash content)
        · rw [if_pos he]
          exact ih (idx + 1) h n hn
        · rw [if_neg he]
          show (processMessages hash rest (idx + 1)
            (updateH h idx (hash content))).hashes ((idx + 1) + n) = _
          exact ih (idx + 1) _ n hn
      · rw [if_pos (by rw [Bool.eq_false_iff.mpr hr]; rfl)]
        exact ih (idx + 1) _ n hn

theorem processMessages_stable (hash : String → String)
    (msgs : List (String × String)) :
    ∀ (idx : Nat) (h : Nat → Option String),
      (∀ k, k < msgs.length → h (idx + k) = some (hash (msgs.getD k ("", "")).2)) →
      (processMessages hash msgs idx h).enqueued = [] := by
  induction msgs with
  | nil => intro idx h hH; rfl
  | cons m rest ih =>
    intro idx h hH
    obtain ⟨role, content⟩ := m
    rw [processMessages]
    by_cases hr : assistantRoles.contains role
    · rw [if_neg (by rw [hr]; exact Bool.false_ne_true)]
      have he : h idx = some (hash content) := by
        have := hH 0 (by simp)
        rwa [Nat.add_zero, List.getD_cons_zero] at this
      rw [if_pos he]
      refine ih (idx + 1) h ?_
      intro k hk
      have := hH (k + 1) (by simp only [List.length_cons]; omega)
      rwa [List.getD_cons_succ, show idx + (k + 1) = (idx + 1) + k from by omega] at this
    · rw [if_pos (by rw [Bool.eq_false_iff.mpr hr]; rfl)]
      refine ih (idx + 1) _ ?_
      intro k hk
      rw [updateH, if_neg (by omega)]
      have := hH (k + 1) (by simp only [List.length_cons]; omega)
      rwa [List.getD_cons_succ, show idx + (k + 1) = (idx + 1) + k from by omega] at this

/-- Claim C9 (counterexample): the enqueue-iff-hash-differs rule does not
hold for every message index: a `"user"`-role message whose content hash
differs from the (absent) recorded fingerprint still enqueues nothing,
even though its content contains an extractable known command. -/
theorem fingerprint_gate_role_filtered :
    (processMessages (fun s => s) [("user", "/create_file a.txt")] 0
        (fun _ => none)).enqueued = [] ∧
      ((fun _ => none : Nat → Option String) 0 ≠
        some ((fun s => s) "/create_file a.txt")) ∧
      enqueueableCmds "/create_file a.txt" = [("create_file", ["a.txt"])] := by
  refine ⟨rfl, by simp, by decide⟩

/-- Claim C9 (amended): only assistant-like roles (assistant, system,
bot, model) are fingerprint-gated and enqueued; an assistant-like message
whose content hash equals the recorded fingerprint is skipped entirely;
and processing the same message list twice enqueues zero new tasks the
second time (for ANY deterministic hash function, initial table and start
index). -/
theorem fingerprint_idempotence (hash : String → String)
    (msgs : List (String × String)) (idx : Nat) (h : Nat → Option String) :
    (∀ role content rest (h2 : Nat → Option String) i,
        assistantRoles.contains role = true →
        h2 i = some (hash content) →
        processMessages hash ((role, content) :: rest) i h2 =
          processMessages hash rest (i + 1) h2) ∧
      (processMessages hash msgs idx
        (processMessages hash msgs idx h).hashes).enqueued = [] := by
  constructor
  · intro role content rest h2 i hrole he
    rw [processMessages]
    rw [if_neg (by rw [hrole]; exact Bool.false_ne_true)]
    rw [if_pos he]
  · exact processMessages_stable hash msgs idx _
      (fun k hk => processMessages_hashes_set hash msgs idx h k hk)

theorem fingerprint_idempotence_witness :
    processMessages (fun s => s) [("assistant", "/set f.txt x")] 0
        (updateH (fun _ => none) 0 "/set f.txt x") =
      processMessages (fun s => s) [] 1
        (updateH (fun _ => none) 0 "/set f.txt x") :=
  (fingerprint_idempotence (fun s => s) [] 0 (fun _ => none)).1
    "assistant" "/set f.txt x" [] (updateH (fun _ => none) 0 "/set f.txt x") 0
    (by decide) (by rw [updateH, if_pos rfl])

end LMSFileGenie
